import Mathlib

/-!
Verification development for the interactive selection and variable-resolution
subsystem of the `rhc` command-line HTTP client.

Strings are modelled as `List Char`.  Rust's `String`/`&str` comparison and
ordering are byte-wise lexicographic over UTF-8, which coincides with
code-point lexicographic order, i.e. lexicographic order on the character
list.  Machine indices (`usize`) are modelled as `Nat`; the few places where
Rust `usize` subtraction could underflow are guarded in the source by the
surrounding conditionals, as noted at each definition.
-/

namespace Rhc

/-- `KeyValue` from src/keyvalue.rs: an ordered name/value pair. -/
structure KeyValue where
  name : List Char
  value : List Char
deriving DecidableEq, Repr

/-- The literal token text searched for a variable: `format!("{{{}}}", var.name)`
in src/templating.rs, i.e. the name wrapped in braces. -/
def target (name : List Char) : List Char := '{' :: (name ++ ['}'])

/-- `pat` is an initial segment of the second list (used to locate literal
pattern occurrences, as Rust's `str::replace` does). -/
def leadsList : List Char → List Char → Bool
  | [], _ => true
  | _ :: _, [] => false
  | a :: as, b :: bs => a == b && leadsList as bs

/-- `pat` occurs as a contiguous sublist somewhere in the second list. -/
def occursIn (pat : List Char) : List Char → Bool
  | [] => leadsList pat []
  | c :: rest => leadsList pat (c :: rest) || occursIn pat rest

/-- One left-to-right, non-overlapping pass replacing every literal occurrence
of `pat` by `rep`, as Rust's `String::replace` does: the replacement text is
spliced in and scanning resumes after the matched occurrence, so `rep` is
never re-scanned within the same pass.  `fuel` is a structural-recursion
bound; callers always pass `fuel = s.length`, which suffices because each
step consumes at least one character (the pattern, being a brace-wrapped
token at every call site, is never empty; an empty pattern performs no
replacement here). -/
def replaceFuel (pat rep : List Char) : Nat → List Char → List Char
  | _, [] => []
  | 0, s => s
  | fuel + 1, c :: rest =>
    if pat ≠ [] ∧ leadsList pat (c :: rest) = true then
      rep ++ replaceFuel pat rep fuel ((c :: rest).drop pat.length)
    else
      c :: replaceFuel pat rep fuel rest

/-- Rust `base.replace(pat, rep)` on character lists. -/
def replaceList (pat rep s : List Char) : List Char := replaceFuel pat rep s.length s

/-- The replacement fold of `substitute`: apply each variable of the set in
order to the accumulated text. -/
def substFold (base : List Char) (vars : List KeyValue) : List Char :=
  vars.foldl (fun acc v => replaceList (target v.name) v.value acc) base

/-- `substitute` from src/templating.rs lines 13-28: fold over the variable
set in order, replacing each variable's brace-wrapped token by its value;
return the final text and the `changed` flag, computed exactly as the source
does by comparing the final output with the original text. -/
def substitute (base : List Char) (vars : List KeyValue) : List Char × Bool :=
  let output := substFold base vars
  if output = base then (base, false) else (output, true)

/-- Instrumented variant of `substitute` that additionally records whether any
step actually found (and hence replaced) an occurrence of its variable's
token in the text current at that step.  The text component is the same fold
as in `substitute`; the Boolean is the formalisation of "at least one
replacement occurred during the call". -/
def substituteTrace (base : List Char) (vars : List KeyValue) : List Char × Bool :=
  vars.foldl
    (fun acc v =>
      (replaceList (target v.name) v.value acc.1,
       acc.2 || occursIn (target v.name) acc.1))
    (base, false)

/-- The lazy regex `\{(.+?)\}` from src/templating.rs line 8, restarted just
after an opening brace: `.` matches any character except a newline, and the
lazy `+?` makes the capture the shortest non-empty run that is followed by a
closing brace.  Given the text after a `{`, returns the captured inner text
and the remainder after the closing brace, or `none` when no match starts at
this brace (no closing brace follows the first captured character, or a
newline intervenes). -/
def matchAfterBrace : List Char → Option (List Char × List Char)
  | [] => none
  | c0 :: cs =>
    let pre := cs.takeWhile (fun c => c != '}')
    if pre.length < cs.length ∧ '\n' ∉ c0 :: pre then
      some (c0 :: pre, cs.drop (pre.length + 1))
    else none

/-- Scan loop of `RE.captures_iter`: find each leftmost match of
`\{(.+?)\}`, emit its capture, and resume after the match; when a `{` starts
no match, resume scanning at the next character.  `fuel` is a
structural-recursion bound; callers pass `fuel = s.length`, which suffices
because the scan position strictly advances. -/
def unboundFuel : Nat → List Char → List (List Char)
  | _, [] => []
  | 0, _ => []
  | fuel + 1, c :: rest =>
    if c = '{' then
      match matchAfterBrace rest with
      | some (cap, rem) => cap :: unboundFuel fuel rem
      | none => unboundFuel fuel rest
    else unboundFuel fuel rest

/-- `unbound_in_string` from src/templating.rs lines 30-34: all captures of
the token regex, in scan order, with duplicates kept. -/
def unbound_in_string (s : List Char) : List (List Char) := unboundFuel s.length s

/-- Byte-lexicographic order on Rust strings, as used by `Vec::sort` on
`Vec<&str>`, modelled character-wise (UTF-8 byte order coincides with
code-point order). -/
def lexLeB : List Char → List Char → Bool
  | [], _ => true
  | _ :: _, [] => false
  | a :: as, b :: bs => if a < b then true else if b < a then false else lexLeB as bs

/-- Propositional form of `lexLeB`. -/
def lexLe (a b : List Char) : Prop := lexLeB a b = true

instance : DecidableRel lexLe := fun a b => by unfold lexLe; infer_instance

/-- Strict form of the lexicographic order. -/
def lexLt (a b : List Char) : Prop := lexLe a b ∧ a ≠ b

/-- Rust `Vec::dedup`: remove consecutive equal elements, keeping one
representative per run. -/
def dedupConsec {α : Type} [DecidableEq α] : List α → List α
  | [] => []
  | [a] => [a]
  | a :: b :: rest => if a = b then dedupConsec (b :: rest) else a :: dedupConsec (b :: rest)

/-- `Metadata` from src/request_definition.rs. -/
structure Metadata where
  description : List Char
deriving DecidableEq, Repr

/-- `Method` from src/request_definition.rs (HTTP verb; not scanned for
variables). -/
inductive Method
  | get | post | put | delete | head | options | patch | trace
deriving DecidableEq, Repr

/-- `Request` from src/request_definition.rs. -/
structure Request where
  url : List Char
  method : Method
deriving DecidableEq, Repr

/-- `Query` from src/request_definition.rs. -/
structure Query where
  params : List KeyValue
deriving DecidableEq, Repr

/-- `Content` from src/request_definition.rs: the three body encodings. -/
inductive Content
  | text (s : List Char)
  | json (s : List Char)
  | urlEncoded (params : List KeyValue)
deriving DecidableEq, Repr

/-- `Headers` from src/request_definition.rs. -/
structure Headers where
  headers : List KeyValue
deriving DecidableEq, Repr

/-- `RequestDefinition` from src/request_definition.rs. -/
structure RequestDefinition where
  metadata : Option Metadata
  request : Request
  query : Option Query
  body : Option Content
  headers : Option Headers
deriving DecidableEq, Repr

/-- Scan one `KeyValue`'s name then value, as the per-header and per-param
loops of `list_unbound_variables` do. -/
def scanKV (kv : KeyValue) : List (List Char) :=
  unbound_in_string kv.name ++ unbound_in_string kv.value

/-- `list_unbound_variables` from src/templating.rs lines 37-83: concatenate
the captures over URL, header names/values, query-parameter names/values and
the body (absent, text, JSON string, or URL-encoded pairs), then
`result.sort(); result.dedup()`.  Rust's stable ascending sort on `Vec<&str>`
is modelled by insertion sort under the lexicographic order (string elements
that compare equal are identical, so any sorted rearrangement is the same
list), and `dedup` removes the now-adjacent duplicates. -/
def list_unbound_variables (rd : RequestDefinition) : List (List Char) :=
  let fromUrl := unbound_in_string rd.request.url
  let headerKVs := match rd.headers with
    | some h => h.headers
    | none => []
  let fromHeaders := (headerKVs.map scanKV).flatten
  let queryKVs := match rd.query with
    | some q => q.params
    | none => []
  let fromQuery := (queryKVs.map scanKV).flatten
  let fromBody := match rd.body with
    | some (Content.text t) => unbound_in_string t
    | some (Content.json j) => unbound_in_string j
    | some (Content.urlEncoded ps) => (ps.map scanKV).flatten
    | none => []
  dedupConsec (List.insertionSort lexLe (fromUrl ++ fromHeaders ++ fromQuery ++ fromBody))

/-- Selection-index reconciliation from src/interactive.rs lines 179-195,
run before every redraw: clear the selection when the filtered view is
empty; select the top entry when the view is non-empty but nothing was
selected; clamp to the last valid index when the previous index now exceeds
the view's bound; otherwise keep the previous index. -/
def reconcile (len : Nat) (sel : Option Nat) : Option Nat :=
  if len = 0 then none
  else
    match sel with
    | none => some 0
    | some i => if len ≤ i then some (len - 1) else some i

/-- The key events of the selector loop that touch the selection index:
`Up`/`Ctrl-p` moves the selection up, `Down`/`Ctrl-n` moves it down, and
every other recognized event (query edits, environment cycling, ...) leaves
the selection index itself unchanged (it changes the filtered length seen at
the next iteration instead, which the trace below quantifies over). -/
inductive SelKey
  | up | down | other
deriving DecidableEq, Repr

/-- Selection-index key handling from src/interactive.rs lines 250-265,
operating on the reconciled index of the same iteration: up is clamped at
the top of the view, down at index 0, no wraparound.  (The source computes
`filtered_choices.len() - 1` only under `Some(selected)`, which after
reconciliation implies `len > 0`, so the `usize` subtraction cannot
underflow.) -/
def selKeyUpdate (len : Nat) (sel : Option Nat) : SelKey → Option Nat
  | SelKey.up =>
    match sel with
    | some i => if i < len - 1 then some (i + 1) else some i
    | none => none
  | SelKey.down =>
    match sel with
    | some i => if 0 < i then some (i - 1) else some i
    | none => none
  | SelKey.other => sel

/-- One selector iteration after another: each iteration sees an arbitrary
filtered-view length (the query, the catalog snapshot and the fuzzy scores
may all have changed), reconciles the inherited selection against it, and
then applies the key event to the reconciled selection.  The value is the
selection index carried out of the last iteration. -/
def selectorTrace (sel0 : Option Nat) : List (Nat × SelKey) → Option Nat
  | [] => sel0
  | (len, key) :: rest => selectorTrace (selKeyUpdate len (reconcile len sel0) key) rest

/-- `Choice` from src/choice.rs: a discoverable request-definition file plus
its not-yet/successfully/unsuccessfully parsed contents (`Option` around a
result; the error payload is opaque here). -/
structure Choice where
  path : List Char
  trimmed_length : Nat
  request_definition : Option (Option RequestDefinition)
deriving DecidableEq, Repr

/-- The fuzzy filter over catalog entries from src/interactive.rs lines
157-177.  `score` abstracts the external `sublime_fuzzy::best_match` applied
to the composed search target (trimmed path + resolved URL + description);
`sortDesc` abstracts `sort_unstable_by` with the descending-score
comparator, whose ordering of tied elements the standard library leaves
implementation-defined.  An empty query short-circuits to the unfiltered
catalog snapshot. -/
def filtered_choices (query : List Char) (score : Choice → Option Int)
    (sortDesc : List (Int × Choice) → List (Int × Choice))
    (all : List Choice) : List Choice :=
  if query = [] then all
  else (sortDesc (all.filterMap (fun c => (score c).map (fun sc => (sc, c))))).map Prod.snd

/-- `HistoryItem` from src/interactive.rs lines 352-357: a previously
entered (variable name, value, environment name) triple, with structural
equality. -/
structure HistoryItem where
  name : List Char
  value : List Char
  env_name : List Char
deriving DecidableEq, Repr

/-- History filtering for one prompt iteration, src/interactive.rs lines
454-472: keep the history items recorded for the current variable name and
environment, then, when the query is non-empty, fuzzy-match the query
against each item's value (`score` abstracting `best_match`) and order by
descending score (`sortDesc` abstracting `sort_unstable_by`).  An empty
query keeps the name/environment-filtered items in insertion order. -/
def filtered_history (full : List HistoryItem) (name env : List Char) (query : List Char)
    (score : List Char → List Char → Option Int)
    (sortDesc : List (Int × HistoryItem) → List (Int × HistoryItem)) : List HistoryItem :=
  let base := full.filter (fun it => it.name == name && it.env_name == env)
  if query = [] then base
  else
    (sortDesc (base.filterMap (fun it => (score query it.value).map (fun sc => (sc, it))))).map
      Prod.snd

/-- Helper loop of `cut_to_current_word_start` (src/interactive.rs lines
21-34), expressed on the reversed character list: pop characters until a
space is popped after at least one non-space was popped, pushing that space
back. -/
def cutAux (cut_a_letter : Bool) : List Char → List Char
  | [] => []
  | c :: rest =>
    if c = ' ' then
      if cut_a_letter then c :: rest else cutAux cut_a_letter rest
    else cutAux true rest

/-- `cut_to_current_word_start` from src/interactive.rs: readline's Ctrl-W. -/
def cut_to_current_word_start (s : List Char) : List Char :=
  (cutAux false s.reverse).reverse

/-- The key events recognized by the variable-prompt loop,
src/interactive.rs lines 541-626. -/
inductive PKey
  | ctrlC | ctrlW | ctrlU | tab | up | down | enter | backspace
  | char (c : Char)
  | other
deriving DecidableEq, Repr

/-- The mutable state of one `prompt_for_variables` session: the query
buffer, the history-browsing index (None while typing), the index of the
variable currently prompted for, the answers so far, and the new history
items appended so far (`created_items`). -/
structure PromptState where
  query : List Char
  active_history_item_index : Option Nat
  current_name_index : Nat
  result : List KeyValue
  created_items : List HistoryItem
deriving DecidableEq, Repr

/-- The initial prompt state: empty query, typing mode, first variable, no
answers, no created items. -/
def promptInit : PromptState :=
  { query := [], active_history_item_index := none, current_name_index := 0,
    result := [], created_items := [] }

/-- The read-only context of one prompt session: the unbound variable names,
the environment label, the history parsed at session start, and the
abstracted fuzzy scorer/sorter (external `sublime_fuzzy` and
`sort_unstable_by`). -/
structure PromptCtx where
  names : List (List Char)
  env_name : List Char
  full_history : List HistoryItem
  score : List Char → List Char → Option Int
  sortDesc : List (Int × HistoryItem) → List (Int × HistoryItem)

/-- The two indexing operations of the prompt loop that can panic:
`names[current_name_index]` (evaluated when rendering the explanation row,
before each input event) and `filtered_history_items[index]` (evaluated on
confirm while a history selection is active). -/
inductive PanicReason
  | nameIndex | histIndex
deriving DecidableEq, Repr

/-- How a modelled prompt run ends: the loop broke with every variable
answered, the user aborted with Ctrl-C, the supplied input events ran out
with the loop still live, or an indexing operation panicked. -/
inductive RunOutcome
  | finished (result : List KeyValue) (created : List HistoryItem)
  | aborted (result : List KeyValue) (created : List HistoryItem)
  | outOfInput (s : PromptState)
  | panicked (r : PanicReason) (s : PromptState)
deriving DecidableEq, Repr

/-- The confirm-key epilogue, src/interactive.rs lines 610-619: if an answer
was just pushed (`result.len() == current_name_index + 1`), advance to the
next variable, reset to typing mode with an empty query, and report whether
the loop should break because every name is answered. -/
def enterAdvance (ctx : PromptCtx) (s : PromptState) : PromptState × Bool :=
  if s.result.length = s.current_name_index + 1 then
    let s' := { s with current_name_index := s.current_name_index + 1,
                       active_history_item_index := none,
                       query := [] }
    (s', ctx.names.length ≤ s'.current_name_index)
  else (s, false)

/-- Result of handling one input event: keep looping with a new state,
abort (Ctrl-C), break with all variables answered, or panic on the
out-of-bounds history indexing `filtered_history_items[index]`. -/
inductive StepOut
  | cont (s : PromptState)
  | abort (result : List KeyValue) (created : List HistoryItem)
  | finish (result : List KeyValue) (created : List HistoryItem)
  | panic (s : PromptState)
deriving DecidableEq, Repr

/-- One key event of the variable-prompt loop, src/interactive.rs lines
541-626, handled against the filtered history view of the current
iteration (`name` is `names[current_name_index]`, already fetched by the
render phase): Ctrl-C aborts; Tab toggles history-browsing mode (enterable
only when the view is non-empty); Up/Down move the history selection
clamped at the view bounds (the source computes
`filtered_history_items.len() - 1` in `usize`; the `Nat` subtraction here
matches it whenever the view is non-empty, and the difference at an empty
view only affects a selection index that is already dangling); confirm
takes the selected history value, or the non-empty query text (appending a
new history item when the triple is absent from the session-start
history), or does nothing on an empty query; Ctrl-W, Ctrl-U, Backspace and
characters edit the query. -/
def promptStep (ctx : PromptCtx) (name : List Char) (k : PKey) (s : PromptState) : StepOut :=
  let filtered :=
    filtered_history ctx.full_history name ctx.env_name s.query ctx.score ctx.sortDesc
  match k with
  | PKey.ctrlC => StepOut.abort s.result s.created_items
  | PKey.ctrlW => StepOut.cont { s with query := cut_to_current_word_start s.query }
  | PKey.ctrlU => StepOut.cont { s with query := [] }
  | PKey.tab =>
    match s.active_history_item_index with
    | some _ => StepOut.cont { s with active_history_item_index := none }
    | none =>
      if filtered ≠ [] then
        StepOut.cont { s with active_history_item_index := some 0 }
      else StepOut.cont s
  | PKey.up =>
    match s.active_history_item_index with
    | some i =>
      if i < filtered.length - 1 then
        StepOut.cont { s with active_history_item_index := some (i + 1) }
      else StepOut.cont s
    | none => StepOut.cont s
  | PKey.down =>
    match s.active_history_item_index with
    | some i =>
      if 0 < i then
        StepOut.cont { s with active_history_item_index := some (i - 1) }
      else StepOut.cont s
    | none => StepOut.cont s
  | PKey.enter =>
    match s.active_history_item_index with
    | some index =>
      match filtered.get? index with
      | none => StepOut.panic s
      | some item =>
        let s1 := { s with result := s.result ++ [KeyValue.mk name item.value] }
        let sb := enterAdvance ctx s1
        if sb.2 then StepOut.finish sb.1.result sb.1.created_items
        else StepOut.cont sb.1
    | none =>
      if s.query ≠ [] then
        let answer : KeyValue := { name := name, value := s.query }
        let newItem : HistoryItem :=
          { name := answer.name, value := answer.value, env_name := ctx.env_name }
        let s0 :=
          if newItem ∈ ctx.full_history then s
          else { s with created_items := s.created_items ++ [newItem] }
        let s1 := { s0 with result := s0.result ++ [answer] }
        let sb := enterAdvance ctx s1
        if sb.2 then StepOut.finish sb.1.result sb.1.created_items
        else StepOut.cont sb.1
      else
        let sb := enterAdvance ctx s
        if sb.2 then StepOut.finish sb.1.result sb.1.created_items
        else StepOut.cont sb.1
  | PKey.backspace => StepOut.cont { s with query := s.query.dropLast }
  | PKey.char c => StepOut.cont { s with query := s.query ++ [c] }
  | PKey.other => StepOut.cont s

/-- The `prompt_for_variables` UI loop, src/interactive.rs lines 449-628,
driven by a list of input events.  Each iteration first renders — which
indexes `names[current_name_index]` for the explanation row, modelled as
the bounds check up front — and then consumes one event via `promptStep`.
Running out of events leaves the loop live (the real loop would keep
blocking for input). -/
def runPrompt (ctx : PromptCtx) : List PKey → PromptState → RunOutcome
  | evs, s =>
    match ctx.names.get? s.current_name_index with
    | none => RunOutcome.panicked PanicReason.nameIndex s
    | some name =>
      match evs with
      | [] => RunOutcome.outOfInput s
      | k :: ks =>
        match promptStep ctx name k s with
        | StepOut.cont s' => runPrompt ctx ks s'
        | StepOut.abort r c => RunOutcome.aborted r c
        | StepOut.finish r c => RunOutcome.finished r c
        | StepOut.panic s' => RunOutcome.panicked PanicReason.histIndex s'

/-- History eviction, src/interactive.rs lines 636-653: when the combined
item count strictly exceeds the configured maximum, rewrite the log keeping
only the suffix of that maximum size (`skip(excess_items)`), dropping the
oldest entries first; otherwise the log is left as is. -/
def evict (maxItems : Nat) (all : List HistoryItem) : List HistoryItem :=
  if maxItems < all.length then all.drop (all.length - maxItems) else all

/-- The created-items component of a run outcome (the history entries
appended to the log during the session up to that point). -/
def createdOf : RunOutcome → List HistoryItem
  | RunOutcome.finished _ c => c
  | RunOutcome.aborted _ c => c
  | RunOutcome.outOfInput s => s.created_items
  | RunOutcome.panicked _ s => s.created_items

/-- `prompt_for_variables` end to end, src/interactive.rs lines 362-662:
run the loop from the initial state, then evict history down to
`config.max_history_items` (default 1000) over pre-existing plus created
items, and return the answers only when every name was answered
(`result.len() == names.len()`), `none` meaning the user aborted.  The
value is `none` (at the outer level) when the modelled run neither broke
nor aborted — out of events, or panicked — since the source function does
not return in those situations. -/
def prompt_for_variables (max_history_items : Option Nat) (ctx : PromptCtx)
    (events : List PKey) : Option (Option (List KeyValue) × List HistoryItem) :=
  match runPrompt ctx events promptInit with
  | RunOutcome.finished r c =>
    some (if r.length = ctx.names.length then some r else none,
          evict (max_history_items.getD 1000) (ctx.full_history ++ c))
  | RunOutcome.aborted r c =>
    some (if r.length = ctx.names.length then some r else none,
          evict (max_history_items.getD 1000) (ctx.full_history ++ c))
  | _ => none

/-- Bookkeeping facts about the history items created so far: each was
absent from the session-start history when appended, and each records the
name of a variable at an index already prompted (below `bound`); moreover,
when the supplied name list has no duplicates, the created items' names are
pairwise distinct. -/
def CreatedInv (ctx : PromptCtx) (bound : Nat) (c : List HistoryItem) : Prop :=
  (∀ it ∈ c, it ∉ ctx.full_history ∧ ∃ j, j < bound ∧ ctx.names.get? j = some it.name) ∧
  (ctx.names.Nodup → (c.map HistoryItem.name).Nodup)

/-- The loop invariant of the variable-prompt state machine: one answer has
been collected per already-completed variable, the current index is within
bounds whenever any progress is possible (it is `0` initially and otherwise
strictly below the name count), and the created items satisfy
`CreatedInv`. -/
def PromptInv (ctx : PromptCtx) (s : PromptState) : Prop :=
  s.result.length = s.current_name_index ∧
  (s.current_name_index = 0 ∨ s.current_name_index < ctx.names.length) ∧
  CreatedInv ctx s.current_name_index s.created_items

/-- What each run outcome guarantees when started from a state satisfying
`PromptInv`: a finished run answered every name; an aborted run answered
strictly fewer; running out of events preserves the invariant; a
`names[current_name_index]` panic is possible only when the name list is
empty (and then nothing was created); a history-indexing panic still
satisfies the created-items bookkeeping. -/
def RunOk (ctx : PromptCtx) : RunOutcome → Prop
  | RunOutcome.finished r c => r.length = ctx.names.length ∧ CreatedInv ctx ctx.names.length c
  | RunOutcome.aborted r c => r.length < ctx.names.length ∧ CreatedInv ctx ctx.names.length c
  | RunOutcome.outOfInput s => PromptInv ctx s
  | RunOutcome.panicked PanicReason.nameIndex s => ctx.names = [] ∧ s.created_items = []
  | RunOutcome.panicked PanicReason.histIndex s =>
      CreatedInv ctx ctx.names.length s.created_items

/-- What handling one key event guarantees from a state satisfying
`PromptInv` with the current name index in bounds: continuing preserves the
invariant; aborting and finishing deliver the answer counts and
created-items bookkeeping claimed by `RunOk`; a history-indexing panic
still satisfies the created-items bookkeeping. -/
def StepOk (ctx : PromptCtx) : StepOut → Prop
  | StepOut.cont s' => PromptInv ctx s'
  | StepOut.abort r c => r.length < ctx.names.length ∧ CreatedInv ctx ctx.names.length c
  | StepOut.finish r c => r.length = ctx.names.length ∧ CreatedInv ctx ctx.names.length c
  | StepOut.panic s' => CreatedInv ctx ctx.names.length s'.created_items

/-! ## Lemmas about literal replacement -/

theorem leadsList_eq_append {pat s : List Char} (h : leadsList pat s = true) :
    s = pat ++ s.drop pat.length := by
  induction pat generalizing s with
  | nil => simp
  | cons a as ih =>
    cases s with
    | nil => simp [leadsList] at h
    | cons b bs =>
      rw [leadsList, Bool.and_eq_true, beq_iff_eq] at h
      obtain ⟨rfl, h2⟩ := h
      simpa using ih h2

theorem replaceFuel_self (pat : List Char) :
    ∀ (fuel : Nat) (s : List Char), s.length ≤ fuel → replaceFuel pat pat fuel s = s := by
  intro fuel
  induction fuel with
  | zero =>
    intro s hs
    cases s with
    | nil => rfl
    | cons c rest => simp at hs
  | succ n ih =>
    intro s hs
    cases s with
    | nil => rfl
    | cons c rest =>
      rw [replaceFuel]
      split
      · rename_i h
        obtain ⟨hne, hlead⟩ := h
        have hdrop := leadsList_eq_append hlead
        have hlen : 1 ≤ pat.length := by
          cases pat with
          | nil => exact absurd rfl hne
          | cons p ps => simp
        rw [ih ((c :: rest).drop pat.length) ?_]
        · exact hdrop.symm
        · simp only [List.length_drop, List.length_cons]
          simp only [List.length_cons] at hs
          omega
      · rw [ih rest ?_]
        simp only [List.length_cons] at hs
        omega

theorem occursIn_cons_false {pat c rest} (h : occursIn pat (c :: rest) = false) :
    leadsList pat (c :: rest) = false ∧ occursIn pat rest = false := by
  rw [occursIn, Bool.or_eq_false_iff] at h
  exact h

theorem replaceFuel_not_occurs (pat rep : List Char) :
    ∀ (s : List Char) (fuel : Nat), occursIn pat s = false → replaceFuel pat rep fuel s = s := by
  intro s
  induction s with
  | nil => intro fuel _; cases fuel <;> rfl
  | cons c rest ih =>
    intro fuel h
    obtain ⟨h1, h2⟩ := occursIn_cons_false h
    cases fuel with
    | zero => rfl
    | succ n =>
      rw [replaceFuel]
      split
      · rename_i hcond
        exact absurd hcond.2 (by simp [h1])
      · rw [ih n h2]

theorem replaceList_not_occurs {pat : List Char} (rep : List Char) {s : List Char}
    (h : occursIn pat s = false) : replaceList pat rep s = s :=
  replaceFuel_not_occurs pat rep s s.length h

theorem substitute_fst (base : List Char) (vars : List KeyValue) :
    (substitute base vars).1 = substFold base vars := by
  rw [substitute]
  split
  · rename_i h; exact h.symm
  · rfl

theorem substituteTrace_false :
    ∀ (vars : List KeyValue) (base : List Char) (b : Bool),
      (vars.foldl
        (fun acc v =>
          (replaceList (target v.name) v.value acc.1,
           acc.2 || occursIn (target v.name) acc.1)) (base, b)).2 = false →
      b = false ∧ substFold base vars = base := by
  intro vars
  induction vars with
  | nil =>
    intro base b h
    exact ⟨h, rfl⟩
  | cons v vs ih =>
    intro base b h
    rw [List.foldl_cons] at h
    obtain ⟨h1, h2⟩ := ih _ _ h
    rw [Bool.or_eq_false_iff] at h1
    obtain ⟨hb, hocc⟩ := h1
    have hrep : replaceList (target v.name) v.value base = base :=
      replaceList_not_occurs v.value hocc
    refine ⟨hb, ?_⟩
    rw [substFold, List.foldl_cons]
    rw [hrep] at h2 ⊢
    exact h2

/-! ## Claim theorems for the templating engine -/

/-- C1, counterexample.  The claim asserts that a replacement value
containing `{token}` syntax is never further expanded by another variable's
binding.  In the source, variables are applied sequentially to the full
accumulated text, so with the set `[a = "{b}", b = "v"]` (in that order) the
text `{a}` first becomes `{b}` and is then expanded again by `b`'s binding,
yielding `v` rather than the claimed `{b}`. -/
theorem claim_C1_counterexample :
    substitute ("{a}".data)
      [⟨"a".data, ['{', 'b', '}']⟩, ⟨"b".data, "v".data⟩] = ("v".data, true) := by decide

/-- C1, amended.  `substitute` applies the variables sequentially in the
set's order, each as a single literal-replacement pass over the accumulated
text: a variable whose value is its own token (`value = "{name}"`) leaves
any text unchanged — so the adversarial self-referential value causes no
expansion and no divergence — and substituting a concatenated variable set
equals substituting the prefix set first and then the suffix set (hence a
value introduced by an earlier variable IS re-scanned by variables applied
later in the order, as the counterexample shows). -/
theorem claim_C1_amended :
    (∀ (t n : List Char), substitute t [⟨n, target n⟩] = (t, false)) ∧
    (∀ (t : List Char) (vs1 vs2 : List KeyValue),
      (substitute t (vs1 ++ vs2)).1 = (substitute (substitute t vs1).1 vs2).1) := by
  constructor
  · intro t n
    have hfold : substFold t [⟨n, target n⟩] = t := by
      show replaceList (target n) (target n) t = t
      exact replaceFuel_self (target n) t.length t le_rfl
    rw [substitute, hfold]
    simp
  · intro t vs1 vs2
    rw [substitute_fst, substitute_fst, substitute_fst]
    rw [substFold, substFold, List.foldl_append]
    rfl

/-- C3, counterexample.  The claim asserts that `changed` is true iff at
least one replacement occurred during the call.  With the set
`[a = "{b}", b = "{a}"]` on the text `{a}`, the first step replaces `{a}`
by `{b}` and the second replaces `{b}` back to `{a}`: replacements occurred
at both steps (the instrumented fold returns `true`), yet the final output
equals the input, so the source's final comparison reports
`changed = false`. -/
theorem claim_C3_counterexample :
    (substitute ("{a}".data)
       [⟨"a".data, ['{', 'b', '}']⟩, ⟨"b".data, ['{', 'a', '}']⟩]).2 = false ∧
    (substituteTrace ("{a}".data)
       [⟨"a".data, ['{', 'b', '}']⟩, ⟨"b".data, ['{', 'a', '}']⟩]).2 = true := by decide

/-- C3, amended.  The `changed` flag returned by `substitute` is true iff
the final output text differs from the input text.  Consequently, when no
replacement occurred during the call (the instrumented fold reports no
occurrence of any applied token), `changed` is false — but a sequence of
replacements whose net effect restores the original text also reports
`changed = false`, as the counterexample shows. -/
theorem claim_C3_amended :
    ∀ (base : List Char) (vars : List KeyValue),
      ((substitute base vars).2 = true ↔ (substitute base vars).1 ≠ base) ∧
      ((substituteTrace base vars).2 = false → (substitute base vars).2 = false) := by
  intro base vars
  constructor
  · rw [substitute]
    split
    · rename_i h
      simp [h]
    · rename_i h
      simp [h]
  · intro h
    obtain ⟨-, hfold⟩ := substituteTrace_false vars base false h
    rw [substitute, hfold]
    simp

/-- C3, witness for the amended claim: a call in which no replacement
occurs reports `changed = false`. -/
theorem claim_C3_witness :
    (substitute ("abc".data) [⟨"x".data, "y".data⟩]).2 = false :=
  (claim_C3_amended ("abc".data) [⟨"x".data, "y".data⟩]).2 (by decide)

/-! ## Lemmas about the token scan, the lexicographic order and dedup -/

theorem matchAfterBrace_shape {s cap rem : List Char}
    (h : matchAfterBrace s = some (cap, rem)) :
    cap ≠ [] ∧ '\n' ∉ cap ∧ ∀ c ∈ cap.drop 1, c ≠ '}' := by
  cases s with
  | nil => simp [matchAfterBrace] at h
  | cons c0 cs =>
    simp only [matchAfterBrace] at h
    split at h
    · rename_i hcond
      obtain ⟨rfl, rfl⟩ : c0 :: cs.takeWhile (fun c => c != '}') = cap ∧
          cs.drop ((cs.takeWhile (fun c => c != '}')).length + 1) = rem := by
        constructor <;> [exact (Prod.mk.injEq _ _ _ _ ▸ Option.some.injEq _ _ ▸ h).1;
          exact (Prod.mk.injEq _ _ _ _ ▸ Option.some.injEq _ _ ▸ h).2]
      refine ⟨by simp, hcond.2, ?_⟩
      intro c hc
      simp only [List.drop_one, List.tail_cons] at hc
      have := List.mem_takeWhile_imp hc
      simpa using this
    · exact absurd h (by simp)

theorem unboundFuel_shape :
    ∀ (fuel : Nat) (s t : List Char), t ∈ unboundFuel fuel s →
      t ≠ [] ∧ '\n' ∉ t ∧ ∀ c ∈ t.drop 1, c ≠ '}' := by
  intro fuel
  induction fuel with
  | zero =>
    intro s t ht
    cases s <;> simp [unboundFuel] at ht
  | succ n ih =>
    intro s t ht
    cases s with
    | nil => simp [unboundFuel] at ht
    | cons c rest =>
      rw [unboundFuel] at ht
      split at ht
      · split at ht
        · rename_i cap rem hm
          rcases List.mem_cons.mp ht with rfl | hmem
          · exact matchAfterBrace_shape hm
          · exact ih rem t hmem
        · exact ih rest t ht
      · exact ih rest t ht

theorem unbound_in_string_shape {s t : List Char} (h : t ∈ unbound_in_string s) :
    t ≠ [] ∧ '\n' ∉ t ∧ ∀ c ∈ t.drop 1, c ≠ '}' :=
  unboundFuel_shape s.length s t h

theorem lexLeB_total : ∀ a b, lexLeB a b = true ∨ lexLeB b a = true := by
  intro a
  induction a with
  | nil => intro b; left; rfl
  | cons x xs ih =>
    intro b
    cases b with
    | nil => right; rfl
    | cons y ys =>
      rw [lexLeB, lexLeB]
      rcases lt_trichotomy x y with h | rfl | h
      · left; simp [h]
      · simp only [lt_irrefl, if_false]
        exact ih ys
      · right; simp [h]

theorem lexLeB_trans : ∀ a b c, lexLeB a b = true → lexLeB b c = true → lexLeB a c = true := by
  intro a
  induction a with
  | nil => intro b c _ _; rfl
  | cons x xs ih =>
    intro b c h1 h2
    cases b with
    | nil => simp [lexLeB] at h1
    | cons y ys =>
      cases c with
      | nil => simp [lexLeB] at h2
      | cons z zs =>
        rw [lexLeB] at h1 h2 ⊢
        rcases lt_trichotomy x y with hxy | rfl | hxy
        · rcases lt_trichotomy y z with hyz | rfl | hyz
          · simp [lt_trans hxy hyz]
          · simp [hxy]
          · simp [asymm hyz, hyz] at h2
        · simp only [lt_irrefl, if_false] at h1
          rcases lt_trichotomy x z with hxz | rfl | hxz
          · simp [hxz]
          · simp only [lt_irrefl, if_false] at h2 ⊢
            exact ih ys zs h1 h2
          · simp [asymm hxz, hxz] at h2
        · simp [asymm hxy, hxy] at h1

theorem lexLeB_antisymm : ∀ a b, lexLeB a b = true → lexLeB b a = true → a = b := by
  intro a
  induction a with
  | nil =>
    intro b _ h2
    cases b with
    | nil => rfl
    | cons y ys => simp [lexLeB] at h2
  | cons x xs ih =>
    intro b h1 h2
    cases b with
    | nil => simp [lexLeB] at h1
    | cons y ys =>
      rw [lexLeB] at h1 h2
      rcases lt_trichotomy x y with hxy | rfl | hxy
      · simp [asymm hxy, hxy] at h2
      · simp only [lt_irrefl, if_false] at h1 h2
        rw [ih ys h1 h2]
      · simp [asymm hxy, hxy] at h1

theorem dedupConsec_sublist {α : Type} [DecidableEq α] :
    ∀ l : List α, (dedupConsec l).Sublist l := by
  intro l
  induction l with
  | nil => simp [dedupConsec]
  | cons a tl ih =>
    cases tl with
    | nil => simp [dedupConsec]
    | cons b rest =>
      rw [dedupConsec]
      split
      · exact ih.cons a
      · exact ih.cons₂ a

theorem dedupConsec_chain :
    ∀ l : List (List Char), l.Pairwise lexLe → (dedupConsec l).Chain' lexLt := by
  intro l
  induction l with
  | nil => intro _; simp [dedupConsec]
  | cons a tl ih =>
    intro hp
    cases tl with
    | nil => simp [dedupConsec]
    | cons b rest =>
      have hp' : (b :: rest).Pairwise lexLe := (List.pairwise_cons.mp hp).2
      have ha : ∀ x ∈ b :: rest, lexLe a x := (List.pairwise_cons.mp hp).1
      rw [dedupConsec]
      split
      · exact ih hp'
      · rename_i hab
        rw [List.chain'_cons']
        refine ⟨?_, ih hp'⟩
        intro y hy
        have hy' : y ∈ b :: rest :=
          (dedupConsec_sublist (b :: rest)).subset (List.mem_of_mem_head? hy)
        refine ⟨ha y hy', ?_⟩
        intro hay
        subst hay
        rcases List.mem_cons.mp hy' with hb | hmem
        · exact hab hb
        · have h1 : lexLe a b := ha b (List.mem_cons_self b rest)
          have h2 : lexLe b a := (List.pairwise_cons.mp hp').1 a hmem
          exact hab (lexLeB_antisymm a b h1 h2)

theorem sorted_lex_sort (l : List (List Char)) :
    (List.insertionSort lexLe l).Pairwise lexLe := by
  haveI : IsTotal (List Char) lexLe := ⟨fun a b => lexLeB_total a b⟩
  haveI : IsTrans (List Char) lexLe := ⟨fun a b c => lexLeB_trans a b c⟩
  exact List.sorted_insertionSort lexLe l

/-! ## Claim theorems for the unbound-token scan -/

/-- C2, counterexample.  The claim asserts every returned identifier
contains no brace characters, reading the pattern as
`{<one-or-more-non-brace-chars>}`.  The regex in the source is the lazy
`\{(.+?)\}`, whose `.` also matches `{`: on the input `{a{b}` the leftmost
match starts at the first `{` and captures `a{b`, which contains an opening
brace (under the claim's reading the scan would instead return `b`). -/
theorem claim_C2_counterexample :
    unbound_in_string ['{', 'a', '{', 'b', '}'] = [['a', '{', 'b']] ∧
    '{' ∈ ['a', '{', 'b'] := by decide

/-- C2, amended.  The scan returns exactly the captures of the lazy regex
`\{(.+?)\}` — for each leftmost match, the shortest non-empty run after a
`{` terminated by the next `}` — so every returned identifier is non-empty,
contains no newline, and contains no `}` beyond possibly its first
character; it may however contain `{` (see the counterexample).
`list_unbound_variables` then sorts the union ascending and removes
duplicates: its output is strictly increasing in the lexicographic string
order, hence deduplicated and deterministically ordered. -/
theorem claim_C2_amended :
    (∀ s t : List Char, t ∈ unbound_in_string s →
      t ≠ [] ∧ '\n' ∉ t ∧ ∀ c ∈ t.drop 1, c ≠ '}') ∧
    (∀ rd : RequestDefinition, (list_unbound_variables rd).Chain' lexLt) := by
  constructor
  · intro s t h
    exact unbound_in_string_shape h
  · intro rd
    simp only [list_unbound_variables]
    exact dedupConsec_chain _ (sorted_lex_sort _)

/-- C2, witness for the amended claim, instantiated on the scan of `{xy}`:
the capture `xy` is non-empty and its tail character is not a closing
brace. -/
theorem claim_C2_witness :
    ("xy".data ≠ [] ∧ '\n' ∉ "xy".data) ∧ 'y' ≠ '}' :=
  ⟨⟨(claim_C2_amended.1 ("{xy}".data) ("xy".data) (by decide)).1,
    (claim_C2_amended.1 ("{xy}".data) ("xy".data) (by decide)).2.1⟩,
   (claim_C2_amended.1 ("{xy}".data) ("xy".data) (by decide)).2.2 'y' (by decide)⟩

/-! ## Claim theorems for the selector loop, the fuzzy filter and eviction -/

/-- C4, confirmed.  After any sequence of selector iterations — each with an
arbitrary filtered-view length and key event — the selection index
reconciled against the next view's length satisfies: it is `none` exactly
when the view is empty; if the view is non-empty and nothing was previously
selected, the top entry (index 0) is selected; and whenever it is `some i`,
`i` is strictly below the view's length. -/
theorem claim_C4 :
    ∀ (sel0 : Option Nat) (events : List (Nat × SelKey)) (len : Nat),
      (reconcile len (selectorTrace sel0 events) = none ↔ len = 0) ∧
      (selectorTrace sel0 events = none → 0 < len →
        reconcile len (selectorTrace sel0 events) = some 0) ∧
      (∀ i, reconcile len (selectorTrace sel0 events) = some i → i < len) := by
  intro sel0 events len
  generalize selectorTrace sel0 events = prev
  by_cases h0 : len = 0
  · subst h0
    cases prev <;> simp [reconcile.eq_def]
  · cases prev with
    | none =>
      refine ⟨?_, ?_, ?_⟩
      · simp [reconcile.eq_def, h0]
      · intro _ _
        simp [reconcile.eq_def, h0]
      · intro i hi
        simp [reconcile.eq_def, h0] at hi
        omega
    | some j =>
      refine ⟨?_, by simp, ?_⟩
      · simp only [reconcile.eq_def, h0, if_false]
        constructor
        · intro h
          split at h <;> simp at h
        · intro h
          exact h.elim
      · intro i hi
        simp only [reconcile.eq_def, h0, if_false] at hi
        split at hi <;> (rw [Option.some.injEq] at hi; omega)

/-- C4, witness: with no previous selection and a view of length 3 the
reconciled index is the top entry; after an up-navigation in a view of
length 2 and a regrowth to length 3 the reconciled index stays in
bounds. -/
theorem claim_C4_witness :
    reconcile 3 (selectorTrace none []) = some 0 ∧ 1 < 3 :=
  ⟨(claim_C4 none [] 3).2.1 rfl (by decide),
   (claim_C4 (some 5) [(2, SelKey.up)] 3).2.2 1 (by decide)⟩

/-- C6, confirmed.  Filtering with an empty query is the identity on the
candidate sequence for both lists: the definition catalog is returned
unchanged (same elements, same order, same length), and the history view is
exactly the name/environment-scoped items in their insertion order — no
candidate is excluded and no score enters the result. -/
theorem claim_C6 :
    ∀ (score1 : Choice → Option Int) (sort1 : List (Int × Choice) → List (Int × Choice))
      (all : List Choice) (full : List HistoryItem) (name env : List Char)
      (score2 : List Char → List Char → Option Int)
      (sort2 : List (Int × HistoryItem) → List (Int × HistoryItem)),
      filtered_choices [] score1 sort1 all = all ∧
      filtered_history full name env [] score2 sort2 =
        full.filter (fun it => it.name == name && it.env_name == env) :=
  fun _ _ _ _ _ _ _ _ => ⟨rfl, rfl⟩

/-- C7, confirmed.  At the end of a prompt session the history log holds the
pre-existing entries followed by the newly created ones; eviction with the
configured maximum (default 1000) keeps exactly the most-recently-added
suffix — the whole list when it fits, else the suffix of maximum size
obtained by dropping the oldest entries first — so the retained count is
`min(total, max)`. -/
theorem claim_C7 :
    ∀ (max_history_items : Option Nat) (full created : List HistoryItem),
      evict (max_history_items.getD 1000) (full ++ created) =
        (full ++ created).drop
          ((full ++ created).length - max_history_items.getD 1000) ∧
      (evict (max_history_items.getD 1000) (full ++ created)).length =
        min (full.length + created.length) (max_history_items.getD 1000) := by
  intro m full created
  rw [evict]
  split
  · rename_i h
    refine ⟨rfl, ?_⟩
    simp only [List.length_drop, List.length_append]
    simp only [List.length_append] at h
    omega
  · rename_i h
    rw [Nat.not_lt] at h
    simp only [List.length_append] at h
    refine ⟨?_, ?_⟩
    · rw [List.length_append, Nat.sub_eq_zero_of_le h, List.drop_zero]
    · simp only [List.length_append]
      omega

/-! ## Lemmas about the variable-prompt state machine -/

theorem CreatedInv.mono {ctx : PromptCtx} {b b' : Nat} {c : List HistoryItem}
    (hbb : b ≤ b') (h : CreatedInv ctx b c) : CreatedInv ctx b' c := by
  unfold CreatedInv at h ⊢
  obtain ⟨h1, h2⟩ := h
  refine ⟨?_, h2⟩
  intro it hit
  obtain ⟨hn, j, hj, hget⟩ := h1 it hit
  exact ⟨hn, j, lt_of_lt_of_le hj hbb, hget⟩

theorem enterAdvance_push {ctx : PromptCtx} {s : PromptState}
    (h : s.result.length = s.current_name_index + 1) :
    enterAdvance ctx s =
      ({ s with current_name_index := s.current_name_index + 1,
                active_history_item_index := none, query := [] },
       decide (ctx.names.length ≤ s.current_name_index + 1)) := by
  unfold enterAdvance
  rw [if_pos h]

theorem enterAdvance_nopush {ctx : PromptCtx} {s : PromptState}
    (h : s.result.length ≠ s.current_name_index + 1) :
    enterAdvance ctx s = (s, false) := by
  unfold enterAdvance
  rw [if_neg h]

theorem advance_ok {ctx : PromptCtx} {t : PromptState}
    (hcur : t.current_name_index < ctx.names.length)
    (hres1 : t.result.length = t.current_name_index + 1)
    (hC : CreatedInv ctx (t.current_name_index + 1) t.created_items) :
    StepOk ctx
      (if (enterAdvance ctx t).2 = true then
        StepOut.finish (enterAdvance ctx t).1.result (enterAdvance ctx t).1.created_items
      else StepOut.cont (enterAdvance ctx t).1) := by
  rw [enterAdvance_push hres1]
  split
  · rename_i hfin
    rw [decide_eq_true_eq] at hfin
    simp only [StepOk]
    constructor
    · show t.result.length = ctx.names.length
      omega
    · show CreatedInv ctx ctx.names.length t.created_items
      exact hC.mono (by omega)
  · rename_i hfin
    have hfin' : ¬ ctx.names.length ≤ t.current_name_index + 1 := by simpa using hfin
    simp only [StepOk]
    refine ⟨?_, ?_, ?_⟩
    · show t.result.length = t.current_name_index + 1
      exact hres1
    · right
      show t.current_name_index + 1 < ctx.names.length
      omega
    · show CreatedInv ctx (t.current_name_index + 1) t.created_items
      exact hC

theorem promptInit_inv (ctx : PromptCtx) : PromptInv ctx promptInit := by
  unfold PromptInv CreatedInv promptInit
  refine ⟨rfl, Or.inl rfl, ?_, ?_⟩
  · intro it hit
    simp at hit
  · intro _
    simp

theorem promptStep_ok {ctx : PromptCtx} {s : PromptState} {name : List Char}
    (hname : ctx.names.get? s.current_name_index = some name)
    (hinv : PromptInv ctx s) (k : PKey) :
    StepOk ctx (promptStep ctx name k s) := by
  have hinv' := hinv
  unfold PromptInv at hinv'
  obtain ⟨hres, hcur0, hcinv⟩ := hinv'
  have hcur : s.current_name_index < ctx.names.length := by
    rcases List.get?_eq_some.mp hname with ⟨hlt, -⟩
    exact hlt
  have hble : s.current_name_index ≤ ctx.names.length := hcur.le
  cases k with
  | ctrlC =>
    simp only [promptStep, StepOk]
    exact ⟨hres ▸ hcur, hcinv.mono hble⟩
  | ctrlW =>
    simp only [promptStep, StepOk]
    exact ⟨hres, hcur0, hcinv⟩
  | ctrlU =>
    simp only [promptStep, StepOk]
    exact ⟨hres, hcur0, hcinv⟩
  | backspace =>
    simp only [promptStep, StepOk]
    exact ⟨hres, hcur0, hcinv⟩
  | char c =>
    simp only [promptStep, StepOk]
    exact ⟨hres, hcur0, hcinv⟩
  | other =>
    simp only [promptStep, StepOk]
    exact ⟨hres, hcur0, hcinv⟩
  | tab =>
    cases hact : s.active_history_item_index with
    | some i =>
      simp only [promptStep, hact, StepOk]
      exact ⟨hres, hcur0, hcinv⟩
    | none =>
      simp only [promptStep, hact]
      split
      · simp only [StepOk]
        exact ⟨hres, hcur0, hcinv⟩
      · simp only [StepOk]
        exact ⟨hres, hcur0, hcinv⟩
  | up =>
    cases hact : s.active_history_item_index with
    | some i =>
      simp only [promptStep, hact]
      split
      · simp only [StepOk]
        exact ⟨hres, hcur0, hcinv⟩
      · simp only [StepOk]
        exact ⟨hres, hcur0, hcinv⟩
    | none =>
      simp only [promptStep, hact, StepOk]
      exact ⟨hres, hcur0, hcinv⟩
  | down =>
    cases hact : s.active_history_item_index with
    | some i =>
      simp only [promptStep, hact]
      split
      · simp only [StepOk]
        exact ⟨hres, hcur0, hcinv⟩
      · simp only [StepOk]
        exact ⟨hres, hcur0, hcinv⟩
    | none =>
      simp only [promptStep, hact, StepOk]
      exact ⟨hres, hcur0, hcinv⟩
  | enter =>
    cases hact : s.active_history_item_index with
    | some index =>
      cases hget :
          (filtered_history ctx.full_history name ctx.env_name s.query ctx.score
              ctx.sortDesc).get? index with
      | none =>
        simp only [promptStep, hact, hget, StepOk]
        exact hcinv.mono hble
      | some item =>
        simp only [promptStep, hact, hget]
        exact advance_ok hcur (by simp [hres]) (hcinv.mono (Nat.le_succ _))
    | none =>
      by_cases hq : s.query = []
      · simp only [promptStep, hact, hq, ne_eq, not_true_eq_false, if_false]
        rw [enterAdvance_nopush (by omega)]
        show StepOk ctx (StepOut.cont s)
        exact ⟨hres, hcur0, hcinv⟩
      · simp only [promptStep, hact, ne_eq, hq, not_false_eq_true, if_true]
        by_cases hmem :
            ({ name := name, value := s.query, env_name := ctx.env_name } : HistoryItem) ∈
              ctx.full_history
        · simp only [hmem, if_true]
          exact advance_ok hcur (by simp [hres]) (hcinv.mono (Nat.le_succ _))
        · simp only [hmem, if_false]
          have hCext : CreatedInv ctx (s.current_name_index + 1)
              (s.created_items ++
                [{ name := name, value := s.query, env_name := ctx.env_name }]) := by
            unfold CreatedInv
            constructor
            · intro it hit
              rcases List.mem_append.mp hit with hold | hnew
              · obtain ⟨hn, j, hj, hg⟩ := hcinv.1 it hold
                exact ⟨hn, j, by omega, hg⟩
              · rw [List.mem_singleton] at hnew
                subst hnew
                exact ⟨hmem, s.current_name_index, by omega, hname⟩
            · intro hnd
              rw [List.map_append, List.nodup_append]
              refine ⟨hcinv.2 hnd, by simp, ?_⟩
              intro a ha hb
              simp only [List.map_cons, List.map_nil, List.mem_singleton] at hb
              subst hb
              obtain ⟨it, hit, hitname⟩ := List.mem_map.mp ha
              obtain ⟨-, j, hj, hg⟩ := hcinv.1 it hit
              have hjlen : j < ctx.names.length := by omega
              have heq : ctx.names.get? j = ctx.names.get? s.current_name_index := by
                rw [hg, hname, hitname]
              have := List.get?_inj hjlen hnd heq
              omega
          exact advance_ok hcur (by simp [hres]) hCext

theorem nameIndex_none_ok {ctx : PromptCtx} {s : PromptState} (hinv : PromptInv ctx s)
    (hname : ctx.names.get? s.current_name_index = none) :
    ctx.names = [] ∧ s.created_items = [] := by
  unfold PromptInv at hinv
  obtain ⟨hres, hcur0, hcinv⟩ := hinv
  rw [List.get?_eq_none] at hname
  rcases hcur0 with h0 | hlt
  · have hlen : ctx.names.length = 0 := by omega
    refine ⟨List.eq_nil_of_length_eq_zero hlen, ?_⟩
    rw [List.eq_nil_iff_forall_not_mem]
    intro it hit
    obtain ⟨-, j, hj, -⟩ := hcinv.1 it hit
    omega
  · omega

theorem runPrompt_none {ctx : PromptCtx} {s : PromptState} (evs : List PKey)
    (hname : ctx.names.get? s.current_name_index = none) :
    runPrompt ctx evs s = RunOutcome.panicked PanicReason.nameIndex s := by
  rw [runPrompt, hname]

theorem runPrompt_nil {ctx : PromptCtx} {s : PromptState} {name : List Char}
    (hname : ctx.names.get? s.current_name_index = some name) :
    runPrompt ctx [] s = RunOutcome.outOfInput s := by
  rw [runPrompt, hname]

theorem runPrompt_cons {ctx : PromptCtx} {s : PromptState} {name : List Char}
    (k : PKey) (ks : List PKey)
    (hname : ctx.names.get? s.current_name_index = some name) :
    runPrompt ctx (k :: ks) s =
      (match promptStep ctx name k s with
      | StepOut.cont s' => runPrompt ctx ks s'
      | StepOut.abort r c => RunOutcome.aborted r c
      | StepOut.finish r c => RunOutcome.finished r c
      | StepOut.panic s' => RunOutcome.panicked PanicReason.histIndex s') := by
  rw [runPrompt, hname]

theorem runPrompt_ok (ctx : PromptCtx) :
    ∀ (evs : List PKey) (s : PromptState), PromptInv ctx s → RunOk ctx (runPrompt ctx evs s) := by
  intro evs
  induction evs with
  | nil =>
    intro s hinv
    cases hname : ctx.names.get? s.current_name_index with
    | none =>
      rw [runPrompt_none [] hname]
      exact nameIndex_none_ok hinv hname
    | some name =>
      rw [runPrompt_nil hname]
      exact hinv
  | cons k ks ih =>
    intro s hinv
    cases hname : ctx.names.get? s.current_name_index with
    | none =>
      rw [runPrompt_none (k :: ks) hname]
      exact nameIndex_none_ok hinv hname
    | some name =>
      rw [runPrompt_cons k ks hname]
      have hstepok := promptStep_ok hname hinv k
      cases hstep : promptStep ctx name k s with
      | cont s' =>
        rw [hstep] at hstepok
        exact ih s' hstepok
      | abort r c =>
        rw [hstep] at hstepok
        exact hstepok
      | finish r c =>
        rw [hstep] at hstepok
        exact hstepok
      | panic s' =>
        rw [hstep] at hstepok
        exact hstepok

/-! ## Claim theorems for the variable-prompt state machine -/

/-- C8, counterexample.  The duplicate check on confirming a freshly-typed
value consults only `full_history` — the session-start snapshot — and not
the items created earlier in the same session.  Prompting twice for the
same variable name (names list `["a", "a"]`) and typing `v` both times
appends the triple `(a, v, e)` twice even though an equal entry already
exists in the store after the first append, so the store ends with two
structurally-equal entries. -/
theorem claim_C8_counterexample :
    createdOf (runPrompt
      { names := ["a".data, "a".data], env_name := "e".data, full_history := [],
        score := fun _ _ => none, sortDesc := fun l => l }
      [PKey.char 'v', PKey.enter, PKey.char 'v', PKey.enter] promptInit) =
      [{ name := "a".data, value := "v".data, env_name := "e".data },
       { name := "a".data, value := "v".data, env_name := "e".data }] ∧
    ¬ (([] : List HistoryItem) ++
        ([{ name := "a".data, value := "v".data, env_name := "e".data },
          { name := "a".data, value := "v".data, env_name := "e".data }] :
          List HistoryItem)).Nodup := by
  constructor
  · decide
  · decide

/-- C8, amended.  A freshly-typed non-empty confirmed value is appended iff
no entry with the same (name, value, environment) triple exists in the
SESSION-START snapshot of the history; entries appended earlier in the same
session are not consulted, so structural duplicates are possible when the
same variable name is prompted twice (see the counterexample).  When the
variable-name list has no duplicates — as produced by the deduplicated
`list_unbound_variables` — and the log starts duplicate-free, the log
(pre-existing entries followed by the created ones) stays duplicate-free
for the entire session, whatever events occur. -/
theorem claim_C8_amended :
    ∀ (ctx : PromptCtx) (events : List PKey),
      ctx.full_history.Nodup → ctx.names.Nodup →
      (∀ it ∈ createdOf (runPrompt ctx events promptInit), it ∉ ctx.full_history) ∧
      (ctx.full_history ++ createdOf (runPrompt ctx events promptInit)).Nodup := by
  intro ctx events hfull hnames
  have hok := runPrompt_ok ctx events promptInit (promptInit_inv ctx)
  have hC : (∀ it ∈ createdOf (runPrompt ctx events promptInit), it ∉ ctx.full_history) ∧
      ((createdOf (runPrompt ctx events promptInit)).map HistoryItem.name).Nodup := by
    cases houtcome : runPrompt ctx events promptInit with
    | finished r c =>
      rw [houtcome] at hok
      have hc := hok.2
      unfold CreatedInv at hc
      exact ⟨fun it hit => (hc.1 it hit).1, hc.2 hnames⟩
    | aborted r c =>
      rw [houtcome] at hok
      have hc := hok.2
      unfold CreatedInv at hc
      exact ⟨fun it hit => (hc.1 it hit).1, hc.2 hnames⟩
    | outOfInput s =>
      rw [houtcome] at hok
      unfold RunOk PromptInv at hok
      have hc := hok.2.2
      unfold CreatedInv at hc
      exact ⟨fun it hit => (hc.1 it hit).1, hc.2 hnames⟩
    | panicked pr s =>
      rw [houtcome] at hok
      cases pr with
      | nameIndex =>
        unfold RunOk at hok
        simp only [createdOf, hok.2]
        exact ⟨fun it hit => absurd hit (List.not_mem_nil it), by simp⟩
      | histIndex =>
        unfold RunOk at hok
        have hc := hok
        unfold CreatedInv at hc
        exact ⟨fun it hit => (hc.1 it hit).1, hc.2 hnames⟩
  obtain ⟨hdisj, hmapnodup⟩ := hC
  refine ⟨hdisj, ?_⟩
  rw [List.nodup_append]
  exact ⟨hfull, List.Nodup.of_map HistoryItem.name hmapnodup,
    fun a ha hb => hdisj a hb ha⟩

/-- C8, witness for the amended claim: a one-variable session from an empty
duplicate-free log with distinct names yields a duplicate-free final
log. -/
theorem claim_C8_witness :
    (([] : List HistoryItem) ++
      createdOf (runPrompt
        { names := ["a".data], env_name := "e".data, full_history := [],
          score := fun _ _ => none, sortDesc := fun l => l }
        [PKey.char 'x', PKey.enter] promptInit)).Nodup :=
  (claim_C8_amended
    { names := ["a".data], env_name := "e".data, full_history := [],
      score := fun _ _ => none, sortDesc := fun l => l }
    [PKey.char 'x', PKey.enter] (by decide) (by decide)).2

/-- C9, confirmed.  If the modelled run ends with a Ctrl-C abort — at any
point before every variable is answered, which is the only way the loop can
abort — then `prompt_for_variables` returns the explicit aborted result
(`none`), carrying no answers even if some variables were already answered;
the history entries already appended during the session are not rolled
back: the final log is the same `evict` of pre-existing plus created items
as for a completed session, and within the configured capacity it retains
every appended entry. -/
theorem claim_C9 :
    ∀ (max_history_items : Option Nat) (ctx : PromptCtx) (events : List PKey)
      (r : List KeyValue) (c : List HistoryItem),
      runPrompt ctx events promptInit = RunOutcome.aborted r c →
      prompt_for_variables max_history_items ctx events =
        some (none, evict (max_history_items.getD 1000) (ctx.full_history ++ c)) ∧
      (ctx.full_history.length + c.length ≤ max_history_items.getD 1000 →
        evict (max_history_items.getD 1000) (ctx.full_history ++ c) =
          ctx.full_history ++ c) := by
  intro m ctx events r c h
  have hok := runPrompt_ok ctx events promptInit (promptInit_inv ctx)
  rw [h] at hok
  have hlt : r.length < ctx.names.length := hok.1
  constructor
  · simp only [prompt_for_variables, h]
    rw [if_neg (Nat.ne_of_lt hlt)]
  · intro hle
    rw [evict, if_neg ?_]
    rw [Nat.not_lt, List.length_append]
    exact hle

/-- C9, witness: cancelling immediately on the first variable yields the
aborted result with no answers and an unchanged (empty) log. -/
theorem claim_C9_witness :
    prompt_for_variables none
      { names := ["a".data], env_name := "e".data, full_history := [],
        score := fun _ _ => none, sortDesc := fun l => l }
      [PKey.ctrlC] =
      some (none, evict ((none : Option Nat).getD 1000) (([] : List HistoryItem) ++ [])) :=
  (claim_C9 none
    { names := ["a".data], env_name := "e".data, full_history := [],
      score := fun _ _ => none, sortDesc := fun l => l }
    [PKey.ctrlC] [] [] (by decide)).1

/-- C10, confirmed.  `prompt_for_variables` implicitly requires a non-empty
name list: started on a non-empty list, no sequence of input events can
drive the loop into an out-of-bounds `names[current_name_index]` access
(the index stays strictly below the list length at every iteration, the
loop breaking as soon as the last name is answered); started on the empty
list, the very first iteration's render indexes `names[0]` out of bounds
before any event is consumed. -/
theorem claim_C10 :
    ∀ ctx : PromptCtx,
      (ctx.names ≠ [] → ∀ (events : List PKey) (s : PromptState),
        runPrompt ctx events promptInit ≠
          RunOutcome.panicked PanicReason.nameIndex s) ∧
      (ctx.names = [] → ∀ events : List PKey,
        runPrompt ctx events promptInit =
          RunOutcome.panicked PanicReason.nameIndex promptInit) := by
  intro ctx
  constructor
  · intro hne events s heq
    have hok := runPrompt_ok ctx events promptInit (promptInit_inv ctx)
    rw [heq] at hok
    exact hne hok.1
  · intro h events
    rw [runPrompt, h]
    rfl

/-- C10, witness: a one-name session never hits the name-index panic, and
an empty-name session panics on names[0] immediately. -/
theorem claim_C10_witness :
    runPrompt
      { names := ["a".data], env_name := "e".data, full_history := [],
        score := fun _ _ => none, sortDesc := fun l => l }
      [PKey.enter] promptInit ≠
      RunOutcome.panicked PanicReason.nameIndex promptInit ∧
    runPrompt
      { names := [], env_name := "e".data, full_history := [],
        score := fun _ _ => none, sortDesc := fun l => l }
      [] promptInit =
      RunOutcome.panicked PanicReason.nameIndex promptInit :=
  ⟨(claim_C10
      { names := ["a".data], env_name := "e".data, full_history := [],
        score := fun _ _ => none, sortDesc := fun l => l }).1
      (by decide) [PKey.enter] promptInit,
   (claim_C10
      { names := [], env_name := "e".data, full_history := [],
        score := fun _ _ => none, sortDesc := fun l => l }).2 rfl []⟩

end Rhc
